import Mathlib

set_option maxHeartbeats 1600000
set_option maxRecDepth 4000

namespace AlignAnything

/-- Serialized chat message list, as the Python code interpolates it into the
cache key f-string and submits it to the completion endpoint. -/
abbrev Input := String

/-- A resolved value stored in the cache dictionary, written to disk and
returned to the caller: either a successful completion or the captured-error
record built in the exception branch of the retry loop. -/
inductive Resp where
  | success (v : String)
  | errorRec (e : String)
deriving DecidableEq, Repr

/-- Outcome of awaiting one submitted future: the completion value, or the
exception the call raised.  The oracle assigns an outcome to every submission,
numbered in submission order; this models arbitrary network behaviour and
arbitrary completion contents. -/
inductive Outcome where
  | ok (v : String)
  | exn (e : String)
deriving DecidableEq, Repr

/-- One network submission (one executor.submit of
create_openai_chat_completion), with ghost bookkeeping: the submitted message
payload, the input index on whose behalf the submission happened, and the
cache key of that slot. -/
structure Call where
  payload : Input
  slot : Nat
  key : String
deriving DecidableEq, Repr

/-- Ghost record of one future being resolved by the result loop: the input
index that created the future, its cache key, and the response stored for it. -/
structure Resolved where
  origIdx : Nat
  key : String
  resp : Resp
deriving DecidableEq, Repr

/-- Association list with latest-binding-first lookup, modelling a Python dict
and also the file map of the cache directory. -/
abbrev Dict := List (String × Resp)

def dlookup (d : Dict) (k : String) : Option Resp :=
  (d.find? (fun p => p.1 == k)).map (fun p => p.2)

/-- Models load_cache: read the file named key.txt in the cache directory when
it exists.  The text round-trip (str on write, eval on read) is modelled as the
identity on the stored value. -/
def load_cache (disk : Dict) (k : String) : Option Resp :=
  dlookup disk (k ++ ".txt")

/-- Models write_cache: open key.txt in write mode, replacing any previous
content of that file. -/
def write_cache (disk : Dict) (k : String) (r : Resp) : Dict :=
  (k ++ ".txt", r) :: disk.filter (fun p => ¬ p.1 == (k ++ ".txt"))

/-- The f-string built by generate_key before hashing: the request type, model,
serialized input, kwargs dict, api key and base url joined by underscores. -/
def keyString (ty model input kwargs apiKeys baseUrl : String) : String :=
  ty ++ "_" ++ model ++ "_" ++ input ++ "_" ++ kwargs ++ "_" ++ apiKeys ++ "_" ++ baseUrl

/-- Models generate_key.  The sha256 hexdigest from hashlib is an external
library function; it is taken as the parameter hash, applied to the f-string. -/
def generate_key (hash : String → String) (ty model kwargs apiKeys baseUrl : String)
    (input : Input) : String :=
  hash (keyString ty model input kwargs apiKeys baseUrl)

/-- The per-call configuration of batch_request_openai: the hash function, the
fields captured by the generate_key closure, the retry bound MAX_RETRY_STEPS
and whether cache_dir is not None. -/
structure Cfg where
  hash : String → String
  ty : String
  model : String
  kwargs : String
  apiKeys : String
  baseUrl : String
  maxRetry : Nat
  useCache : Bool

def keyOf (cfg : Cfg) (input : Input) : String :=
  generate_key cfg.hash cfg.ty cfg.model cfg.kwargs cfg.apiKeys cfg.baseUrl input

/-- Models the loop that populates cache_dict from disk: for every key of
full_keys whose file exists, cache_dict gets that entry. -/
def loadPhase (disk0 : Dict) (ks : List String) : Dict :=
  ks.foldl (fun d k =>
    match load_cache disk0 k with
    | some v => (k, v) :: d
    | none => d) []

/-- Models zip(range(len(inputs)), full_keys, inputs). -/
def zipIdx (cfg : Cfg) : Nat → List Input → List (Nat × String × Input)
  | _, [] => []
  | i, x :: xs => (i, keyOf cfg x, x) :: zipIdx cfg (i + 1) xs

/-- The zipped entries whose key is not in cache_dict, hence get submitted. -/
def pend (cd : Dict) (zs : List (Nat × String × Input)) : List (Nat × String × Input) :=
  zs.filter (fun t => (dlookup cd t.2.1).isNone)

/-- One pending future of the futures list: the input index that created it,
its cache key, and the submission number identifying its network call. -/
structure Fut where
  origIdx : Nat
  key : String
  futId : Nat
deriving DecidableEq, Repr

/-- Specification form of the futures produced for a pending list, with
submission numbers starting at c. -/
def futsOf (c : Nat) : List (Nat × String × Input) → List Fut
  | [] => []
  | t :: rest => ⟨t.1, t.2.1, c⟩ :: futsOf (c + 1) rest

/-- Models the submission loop: skip entries whose key is already in
cache_dict, submit the rest, recording one Call each and appending to the
futures list.  Returns the submission counter, call log and futures list. -/
def submitLoop (cd : Dict) : List (Nat × String × Input) → Nat → List Call → List Fut →
    Nat × List Call × List Fut
  | [], c, cs, fs => (c, cs, fs)
  | t :: rest, c, cs, fs =>
    if (dlookup cd t.2.1).isSome then
      submitLoop cd rest c cs fs
    else
      submitLoop cd rest (c + 1) (cs ++ [⟨t.2.2, t.1, t.2.1⟩]) (fs ++ [⟨t.1, t.2.1, c⟩])

/-- Models the inner while loop over retry_steps for one future.  On an
exception the captured-error record becomes the provisional response, a fresh
future is submitted with the leaked loop variable input as payload, and the
loop continues while retry_steps is below the bound; fuel is the number of
iterations still allowed.  Returns none when the loop never ran and no
response was ever bound, which in Python would raise NameError. -/
def awaitRetry (oracle : Nat → Outcome) (leaked : Input) (origIdx : Nat) (key : String)
    (futId fuel c : Nat) (cs : List Call) (last : Option Resp) :
    Option Resp × Nat × List Call :=
  match fuel with
  | 0 => (last, c, cs)
  | fuel + 1 =>
    match oracle futId with
    | Outcome.ok v => (some (Resp.success v), c, cs)
    | Outcome.exn e =>
      awaitRetry oracle leaked origIdx key c fuel (c + 1)
        (cs ++ [⟨leaked, origIdx, key⟩]) (some (Resp.errorRec e))

/-- State threaded through the result loop: the submission counter, the call
log, cache_dict, the cache directory, the ghost log of cache writes and the
ghost log of resolved futures. -/
structure RunState where
  counter : Nat
  calls : List Call
  dict : Dict
  disk : Dict
  writes : List (String × Resp)
  resolved : List Resolved
deriving DecidableEq, Repr

/-- Models the result loop: await each future with retries, store the final
response in cache_dict under the future key, and write the cache file when
cache_dir is set. -/
def resultLoop (oracle : Nat → Outcome) (leaked : Input) (useCache : Bool) (maxRetry : Nat) :
    List Fut → RunState → Option RunState
  | [], st => some st
  | f :: rest, st =>
    match awaitRetry oracle leaked f.origIdx f.key f.futId maxRetry st.counter st.calls none with
    | (none, _, _) => none
    | (some r, c2, cs2) =>
      resultLoop oracle leaked useCache maxRetry rest
        { counter := c2
          calls := cs2
          dict := (f.key, r) :: st.dict
          disk := if useCache then write_cache st.disk f.key r else st.disk
          writes := if useCache then st.writes ++ [(f.key, r)] else st.writes
          resolved := st.resolved ++ [⟨f.origIdx, f.key, r⟩] }

/-- The observable final state of one batch_request_openai call: the returned
output list, the full submission log, the cache-write log, the resolved-future
log, the final cache directory and the final cache_dict. -/
structure RunResult where
  outputs : List (Option Resp)
  calls : List Call
  writes : List (String × Resp)
  resolved : List Resolved
  disk : Dict
  dict : Dict
deriving DecidableEq, Repr

/-- Models batch_request_openai: load the cache into cache_dict, submit every
input whose key is not cached, await each future with up to maxRetry observed
attempts, record and persist each resolved response, and assemble the output
by looking every full key up in cache_dict.  Returns none when the Python code
would raise NameError, namely when maxRetry is zero and a future exists. -/
def batch_request_openai (cfg : Cfg) (oracle : Nat → Outcome) (disk0 : Dict)
    (inputs : List Input) : Option RunResult :=
  let cd := if cfg.useCache then loadPhase disk0 (inputs.map (keyOf cfg)) else []
  let s := submitLoop cd (zipIdx cfg 0 inputs) 0 [] []
  let st0 : RunState := ⟨s.1, s.2.1, cd, disk0, [], []⟩
  match resultLoop oracle (inputs.getLastD "") cfg.useCache cfg.maxRetry s.2.2 st0 with
  | none => none
  | some st =>
    some ⟨(inputs.map (keyOf cfg)).map (dlookup st.dict), st.calls, st.writes, st.resolved,
      st.disk, st.dict⟩

/-- The value the output list holds for a key: the response of the last future
resolved for that key, else the value persisted on disk. -/
def expectedOut (useCache : Bool) (disk0 : Dict) (resolved : List Resolved) (k : String) :
    Option Resp :=
  match (resolved.filter (fun e => e.key == k)).getLast? with
  | some e => some e.resp
  | none => if useCache then load_cache disk0 k else none

/-- A file system with named directories, each holding a file map, for
clean_cache and its frame property. -/
abbrev FileSys := List (String × Dict)

def fsLookup (fs : FileSys) (d : String) : Option Dict :=
  (fs.find? (fun p => p.1 == d)).map (fun p => p.2)

/-- Remove each named file from a directory, in order, modelling the os.remove
iteration of clean_cache. -/
def removeFiles (names : List String) (d : Dict) : Dict :=
  names.foldl (fun acc n => acc.filter (fun p => ¬ p.1 == n)) d

/-- Models clean_cache: list the files of the directory and remove each of
them; none models the FileNotFoundError of a missing directory. -/
def clean_cache (fs : FileSys) (dir : String) : Option FileSys :=
  match fsLookup fs dir with
  | none => none
  | some files =>
    some (fs.map (fun p =>
      if p.1 == dir then (p.1, removeFiles (files.map (fun q => q.1)) files) else p))

end AlignAnything

namespace AlignAnything

lemma find?_eq_head?_filter {α : Type} (p : α → Bool) (l : List α) :
    l.find? p = (l.filter p).head? := by
  induction l with
  | nil => rfl
  | cons a l ih =>
    by_cases h : p a
    · simp [List.find?_cons_of_pos _ h, List.filter_cons, h]
    · rw [List.find?_cons_of_neg _ h, List.filter_cons]
      simp only [Bool.not_eq_true] at h
      rw [h]
      simp only [Bool.false_eq_true, if_false]
      exact ih

lemma find?_reverse_eq_getLast?_filter {α : Type} (p : α → Bool) (l : List α) :
    l.reverse.find? p = (l.filter p).getLast? := by
  rw [find?_eq_head?_filter, List.filter_reverse, List.head?_reverse]

lemma dlookup_nil (k : String) : dlookup [] k = none := rfl

lemma dlookup_cons (k' : String) (v : Resp) (d : Dict) (k : String) :
    dlookup ((k', v) :: d) k = if k' == k then some v else dlookup d k := by
  by_cases h : k' == k
  · simp [dlookup, List.find?_cons_of_pos, h]
  · simp only [Bool.not_eq_true] at h
    simp [dlookup, List.find?_cons_of_neg, h]

lemma dlookup_append (L d : Dict) (k : String) :
    dlookup (L ++ d) k =
      ((L.find? (fun p => p.1 == k)).map (fun p => p.2)).or (dlookup d k) := by
  unfold dlookup
  rw [List.find?_append]
  cases L.find? (fun p => p.1 == k) <;> simp

/-- Looking a key up after the result loop prepended the resolved pairs: the
last resolved entry for the key wins, else the lookup falls through. -/
lemma dlookup_revmap_append (Δ : List Resolved) (d : Dict) (k : String) :
    dlookup ((Δ.map (fun e => (e.key, e.resp))).reverse ++ d) k =
      match (Δ.filter (fun e => e.key == k)).getLast? with
      | some e => some e.resp
      | none => dlookup d k := by
  rw [dlookup_append, ← List.map_reverse, List.find?_map]
  have h1 : (Δ.reverse.find? ((fun p : String × Resp => p.1 == k) ∘
      (fun e : Resolved => (e.key, e.resp)))) =
      (Δ.filter (fun e => e.key == k)).getLast? := by
    rw [find?_reverse_eq_getLast?_filter]
    rfl
  rw [h1]
  cases h2 : (Δ.filter (fun e => e.key == k)).getLast? <;> simp

lemma loadPhase_go_lookup (disk0 : Dict) (ks : List String) (d : Dict) (k : String) :
    dlookup (ks.foldl (fun d k =>
      match load_cache disk0 k with
      | some v => (k, v) :: d
      | none => d) d) k =
      if k ∈ ks ∧ (load_cache disk0 k).isSome then load_cache disk0 k
      else dlookup d k := by
  induction ks generalizing d with
  | nil => simp
  | cons k2 ks ih =>
    simp only [List.foldl_cons]
    cases hload : load_cache disk0 k2 with
    | none =>
      rw [ih]
      by_cases hk : k = k2
      · subst hk
        simp [hload]
      · simp [List.mem_cons, hk]
    | some v =>
      rw [ih]
      by_cases hk : k = k2
      · subst hk
        by_cases hks : k ∈ ks ∧ (load_cache disk0 k).isSome
        · rw [if_pos hks, if_pos ⟨List.mem_cons_self _ _, hks.2⟩]
        · rw [if_neg hks, dlookup_cons]
          simp only [beq_self_eq_true, if_true]
          rw [if_pos ⟨List.mem_cons_self _ _, by simp [hload]⟩, hload]
      · rw [dlookup_cons]
        have hne : ¬ (k2 == k) = true := by
          simp only [beq_iff_eq]
          intro h
          exact hk h.symm
        simp only [hne, if_false]
        simp [List.mem_cons, hk]

lemma dlookup_loadPhase (disk0 : Dict) (ks : List String) (k : String) :
    dlookup (loadPhase disk0 ks) k =
      if k ∈ ks ∧ (load_cache disk0 k).isSome then load_cache disk0 k else none := by
  unfold loadPhase
  rw [loadPhase_go_lookup]
  rfl

lemma submitLoop_eq (cd : Dict) (zs : List (Nat × String × Input)) (c : Nat)
    (cs : List Call) (fs : List Fut) :
    submitLoop cd zs c cs fs =
      (c + (pend cd zs).length,
       cs ++ (pend cd zs).map (fun t => (⟨t.2.2, t.1, t.2.1⟩ : Call)),
       fs ++ futsOf c (pend cd zs)) := by
  induction zs generalizing c cs fs with
  | nil => simp [submitLoop, pend, futsOf]
  | cons t rest ih =>
    cases hd : dlookup cd t.2.1 with
    | some v =>
      have hpend : pend cd (t :: rest) = pend cd rest := by
        simp [pend, List.filter_cons, hd]
      rw [hpend]
      show submitLoop cd (t :: rest) c cs fs = _
      simp only [submitLoop]
      rw [hd]
      simp only [Option.isSome_some, if_true]
      exact ih c cs fs
    | none =>
      have hpend : pend cd (t :: rest) = t :: pend cd rest := by
        simp [pend, List.filter_cons, hd]
      rw [hpend]
      show submitLoop cd (t :: rest) c cs fs = _
      simp only [submitLoop]
      rw [hd]
      simp only [Option.isSome_none, Bool.false_eq_true, if_false]
      rw [ih]
      simp only [futsOf, List.length_cons, List.map_cons, Prod.mk.injEq]
      refine ⟨by omega, by simp, by simp⟩

lemma futsOf_map_pair (c : Nat) (l : List (Nat × String × Input)) :
    (futsOf c l).map (fun f => (f.origIdx, f.key)) = l.map (fun t => (t.1, t.2.1)) := by
  induction l generalizing c with
  | nil => rfl
  | cons t rest ih => simp [futsOf, ih]

lemma futsOf_map_key (c : Nat) (l : List (Nat × String × Input)) :
    (futsOf c l).map (fun f => f.key) = l.map (fun t => t.2.1) := by
  induction l generalizing c with
  | nil => rfl
  | cons t rest ih => simp [futsOf, ih]

lemma mem_futsOf {c : Nat} {l : List (Nat × String × Input)} {f : Fut}
    (h : f ∈ futsOf c l) : ∃ t ∈ l, f.origIdx = t.1 ∧ f.key = t.2.1 := by
  induction l generalizing c with
  | nil => simp [futsOf] at h
  | cons t rest ih =>
    simp only [futsOf, List.mem_cons] at h
    rcases h with h | h
    · exact ⟨t, List.mem_cons_self t rest, by rw [h], by rw [h]⟩
    · rcases ih h with ⟨t', ht', h1, h2⟩
      exact ⟨t', List.mem_cons_of_mem _ ht', h1, h2⟩

lemma mem_zipIdx {cfg : Cfg} {s : Nat} {l : List Input} {t : Nat × String × Input} :
    t ∈ zipIdx cfg s l ↔ ∃ j x, l[j]? = some x ∧ t = (s + j, keyOf cfg x, x) := by
  induction l generalizing s with
  | nil => simp [zipIdx]
  | cons y ys ih =>
    simp only [zipIdx, List.mem_cons]
    constructor
    · intro h
      rcases h with h | h
      · exact ⟨0, y, by simp, by simpa using h⟩
      · rcases (ih (s := s + 1)).mp h with ⟨j, x, hx, ht⟩
        refine ⟨j + 1, x, by simpa using hx, ?_⟩
        rw [ht]
        congr 1
        omega
    · rintro ⟨j, x, hx, ht⟩
      cases j with
      | zero =>
        left
        simp at hx
        rw [ht, hx]
        simp
      | succ j =>
        right
        apply (ih (s := s + 1)).mpr
        refine ⟨j, x, by simpa using hx, ?_⟩
        rw [ht]
        congr 1
        omega

lemma zipIdx_map_fst (cfg : Cfg) (s : Nat) (l : List Input) :
    (zipIdx cfg s l).map (fun t => t.1) = List.range' s l.length := by
  induction l generalizing s with
  | nil => rfl
  | cons y ys ih => simp [zipIdx, List.range'_succ, ih]

lemma zipIdx_map_key (cfg : Cfg) (s : Nat) (l : List Input) :
    (zipIdx cfg s l).map (fun t => t.2.1) = l.map (keyOf cfg) := by
  induction l generalizing s with
  | nil => rfl
  | cons y ys ih => simp [zipIdx, ih]

end AlignAnything

namespace AlignAnything

def cdOf (cfg : Cfg) (disk0 : Dict) (inputs : List Input) : Dict :=
  if cfg.useCache then loadPhase disk0 (inputs.map (keyOf cfg)) else []

def pendOf (cfg : Cfg) (disk0 : Dict) (inputs : List Input) : List (Nat × String × Input) :=
  pend (cdOf cfg disk0 inputs) (zipIdx cfg 0 inputs)

lemma awaitRetry_calls (oracle : Nat → Outcome) (leaked : Input) (origIdx : Nat) (key : String)
    (futId fuel c : Nat) (cs : List Call) (last : Option Resp) :
    ∃ j, j ≤ fuel ∧
      (awaitRetry oracle leaked origIdx key futId fuel c cs last).2.1 = c + j ∧
      (awaitRetry oracle leaked origIdx key futId fuel c cs last).2.2 =
        cs ++ List.replicate j ⟨leaked, origIdx, key⟩ := by
  induction fuel generalizing futId c cs last with
  | zero => exact ⟨0, by simp [awaitRetry]⟩
  | succ fuel ih =>
    cases ho : oracle futId with
    | ok v =>
      refine ⟨0, by omega, ?_, ?_⟩ <;> simp [awaitRetry, ho]
    | exn e =>
      rcases ih c (c + 1) (cs ++ [⟨leaked, origIdx, key⟩]) (some (Resp.errorRec e)) with
        ⟨j, hj, h1, h2⟩
      refine ⟨j + 1, by omega, ?_, ?_⟩
      · simp only [awaitRetry, ho]
        rw [h1]
        omega
      · simp only [awaitRetry, ho]
        rw [h2]
        simp [List.replicate_succ, List.append_assoc]

lemma awaitRetry_fst_isSome_of_last (oracle : Nat → Outcome) (leaked : Input) (origIdx : Nat)
    (key : String) (futId fuel c : Nat) (cs : List Call) (r : Resp) :
    (awaitRetry oracle leaked origIdx key futId fuel c cs (some r)).1.isSome := by
  induction fuel generalizing futId c cs r with
  | zero => simp [awaitRetry]
  | succ fuel ih =>
    cases ho : oracle futId with
    | ok v => simp [awaitRetry, ho]
    | exn e =>
      simp only [awaitRetry, ho]
      exact ih c (c + 1) (cs ++ [⟨leaked, origIdx, key⟩]) (Resp.errorRec e)

lemma awaitRetry_fst_isSome (oracle : Nat → Outcome) (leaked : Input) (origIdx : Nat)
    (key : String) (futId fuel c : Nat) (cs : List Call) (h : 0 < fuel) :
    (awaitRetry oracle leaked origIdx key futId fuel c cs none).1.isSome := by
  cases fuel with
  | zero => omega
  | succ fuel =>
    cases ho : oracle futId with
    | ok v => simp [awaitRetry, ho]
    | exn e =>
      simp only [awaitRetry, ho]
      exact awaitRetry_fst_isSome_of_last oracle leaked origIdx key c fuel (c + 1)
        (cs ++ [⟨leaked, origIdx, key⟩]) (Resp.errorRec e)

/-- Under an oracle that makes every call raise, the retry loop performs fuel
observed attempts, submits fuel fresh calls carrying the leaked payload, and
ends with the captured-error record. -/
lemma awaitRetry_exn (e : String) (leaked : Input) (origIdx : Nat) (key : String)
    (futId fuel c : Nat) (cs : List Call) (last : Option Resp) :
    awaitRetry (fun _ => Outcome.exn e) leaked origIdx key futId fuel c cs last =
      ((if fuel = 0 then last else some (Resp.errorRec e)), c + fuel,
        cs ++ List.replicate fuel ⟨leaked, origIdx, key⟩) := by
  induction fuel generalizing futId c cs last with
  | zero => simp [awaitRetry]
  | succ fuel ih =>
    simp only [awaitRetry]
    rw [ih]
    rw [if_neg (Nat.succ_ne_zero fuel)]
    simp only [ite_self, Prod.mk.injEq, List.replicate_succ, List.append_assoc,
      List.singleton_append, and_true, true_and]
    omega

lemma resultLoop_cons (oracle : Nat → Outcome) (leaked : Input) (u : Bool) (m : Nat)
    (f : Fut) (rest : List Fut) (st : RunState) :
    resultLoop oracle leaked u m (f :: rest) st =
      match awaitRetry oracle leaked f.origIdx f.key f.futId m st.counter st.calls none with
      | (none, _, _) => none
      | (some r, c2, cs2) =>
        resultLoop oracle leaked u m rest
          { counter := c2, calls := cs2, dict := (f.key, r) :: st.dict,
            disk := if u then write_cache st.disk f.key r else st.disk,
            writes := if u then st.writes ++ [(f.key, r)] else st.writes,
            resolved := st.resolved ++ [⟨f.origIdx, f.key, r⟩] } := rfl

lemma resultLoop_cons_some (oracle : Nat → Outcome) (leaked : Input) (u : Bool) (m : Nat)
    (f : Fut) (rest : List Fut) (st : RunState) (r : Resp) (c2 : Nat) (cs2 : List Call)
    (ha : awaitRetry oracle leaked f.origIdx f.key f.futId m st.counter st.calls none =
      (some r, c2, cs2)) :
    resultLoop oracle leaked u m (f :: rest) st =
      resultLoop oracle leaked u m rest
        { counter := c2, calls := cs2, dict := (f.key, r) :: st.dict,
          disk := if u then write_cache st.disk f.key r else st.disk,
          writes := if u then st.writes ++ [(f.key, r)] else st.writes,
          resolved := st.resolved ++ [⟨f.origIdx, f.key, r⟩] } := by
  rw [resultLoop_cons, ha]

lemma resultLoop_cons_none (oracle : Nat → Outcome) (leaked : Input) (u : Bool) (m : Nat)
    (f : Fut) (rest : List Fut) (st : RunState) (c2 : Nat) (cs2 : List Call)
    (ha : awaitRetry oracle leaked f.origIdx f.key f.futId m st.counter st.calls none =
      (none, c2, cs2)) :
    resultLoop oracle leaked u m (f :: rest) st = none := by
  rw [resultLoop_cons, ha]

/-- Shape of a completed result loop: the resolved log grows by one entry per
future in order, cache_dict gains exactly the resolved pairs with the latest
prepended, the write log gains the same pairs when the cache is on, and every
new call is a retry carrying the leaked payload on behalf of some future. -/
lemma resultLoop_spec (oracle : Nat → Outcome) (leaked : Input) (u : Bool) (m : Nat) :
    ∀ (futs : List Fut) (st st' : RunState),
      resultLoop oracle leaked u m futs st = some st' →
      ∃ Δ : List Resolved,
        st'.resolved = st.resolved ++ Δ ∧
        Δ.map (fun e => (e.origIdx, e.key)) = futs.map (fun f => (f.origIdx, f.key)) ∧
        st'.dict = (Δ.map (fun e => (e.key, e.resp))).reverse ++ st.dict ∧
        st'.writes = st.writes ++ (if u then Δ.map (fun e => (e.key, e.resp)) else []) ∧
        (∀ c ∈ st'.calls, c ∈ st.calls ∨
          ∃ f ∈ futs, c.payload = leaked ∧ c.slot = f.origIdx ∧ c.key = f.key) := by
  intro futs
  induction futs with
  | nil =>
    intro st st' h
    simp only [resultLoop, Option.some.injEq] at h
    subst h
    exact ⟨[], by simp, by simp, by simp, by cases u <;> simp, fun c hc => Or.inl hc⟩
  | cons f rest ih =>
    intro st st' h
    cases ha : awaitRetry oracle leaked f.origIdx f.key f.futId m st.counter st.calls none with
    | mk ro r2 =>
      cases r2 with
      | mk c2 cs2 =>
        cases ro with
        | none =>
          rw [resultLoop_cons_none oracle leaked u m f rest st c2 cs2 ha] at h
          exact absurd h (by simp)
        | some r =>
          rw [resultLoop_cons_some oracle leaked u m f rest st r c2 cs2 ha] at h
          rcases ih _ _ h with ⟨Δ2, h1, h2, h3, h4, h5⟩
          obtain ⟨j, hj, hc2, hcs2⟩ :=
            awaitRetry_calls oracle leaked f.origIdx f.key f.futId m st.counter st.calls none
          rw [ha] at hcs2
          simp only at hcs2
          refine ⟨⟨f.origIdx, f.key, r⟩ :: Δ2, ?_, ?_, ?_, ?_, ?_⟩
          · rw [h1]
            simp
          · simp only [List.map_cons, h2]
          · rw [h3]
            simp [List.append_assoc]
          · rw [h4]
            simp only at h1 h3
            cases u <;> simp [List.append_assoc]
          · intro c hc
            rcases h5 c hc with hcin | ⟨f2, hf2, hp⟩
            · simp only at hcin
              rw [hcs2] at hcin
              rcases List.mem_append.mp hcin with hcin | hcin
              · exact Or.inl hcin
              · right
                refine ⟨f, List.mem_cons_self f rest, ?_, ?_, ?_⟩ <;>
                  simp [List.eq_of_mem_replicate hcin]
            · exact Or.inr ⟨f2, List.mem_cons_of_mem f hf2, hp⟩

lemma resultLoop_isSome (oracle : Nat → Outcome) (leaked : Input) (u : Bool) (m : Nat)
    (hm : 0 < m) :
    ∀ (futs : List Fut) (st : RunState), (resultLoop oracle leaked u m futs st).isSome := by
  intro futs
  induction futs with
  | nil =>
    intro st
    simp [resultLoop]
  | cons f rest ih =>
    intro st
    have h1 := awaitRetry_fst_isSome oracle leaked f.origIdx f.key f.futId m st.counter
      st.calls hm
    cases ha : awaitRetry oracle leaked f.origIdx f.key f.futId m st.counter st.calls none with
    | mk ro r2 =>
      cases r2 with
      | mk c2 cs2 =>
        cases ro with
        | none =>
          rw [ha] at h1
          simp at h1
        | some r =>
          rw [resultLoop_cons_some oracle leaked u m f rest st r c2 cs2 ha]
          exact ih _

end AlignAnything

namespace AlignAnything

/-- Under an oracle that makes every call raise, the result loop resolves every
future to the captured-error record after exactly maxRetry observed failures,
submitting maxRetry retry calls per future with the leaked payload. -/
lemma resultLoop_exn (e : String) (leaked : Input) (u : Bool) (m : Nat) (hm : 0 < m) :
    ∀ (futs : List Fut) (st : RunState),
      ∃ st', resultLoop (fun _ => Outcome.exn e) leaked u m futs st = some st' ∧
        st'.calls = st.calls ++
          futs.flatMap (fun f => List.replicate m ⟨leaked, f.origIdx, f.key⟩) ∧
        st'.dict = (futs.map (fun f => (f.key, Resp.errorRec e))).reverse ++ st.dict := by
  intro futs
  induction futs with
  | nil =>
    intro st
    exact ⟨st, rfl, by simp, by simp⟩
  | cons f rest ih =>
    intro st
    have ha := awaitRetry_exn e leaked f.origIdx f.key f.futId m st.counter st.calls none
    rw [if_neg (Nat.pos_iff_ne_zero.mp hm)] at ha
    rcases ih
      { counter := st.counter + m
        calls := st.calls ++ List.replicate m ⟨leaked, f.origIdx, f.key⟩
        dict := (f.key, Resp.errorRec e) :: st.dict
        disk := if u then write_cache st.disk f.key (Resp.errorRec e) else st.disk
        writes := if u then st.writes ++ [(f.key, Resp.errorRec e)] else st.writes
        resolved := st.resolved ++ [⟨f.origIdx, f.key, Resp.errorRec e⟩] } with
      ⟨st', hrun, hcalls, hdict⟩
    refine ⟨st', ?_, ?_, ?_⟩
    · rw [resultLoop_cons_some (fun _ => Outcome.exn e) leaked u m f rest st
        (Resp.errorRec e) (st.counter + m)
        (st.calls ++ List.replicate m ⟨leaked, f.origIdx, f.key⟩) ha]
      exact hrun
    · rw [hcalls]
      simp [List.append_assoc]
    · rw [hdict]
      simp [List.append_assoc]

lemma batch_unfold (cfg : Cfg) (oracle : Nat → Outcome) (disk0 : Dict) (inputs : List Input) :
    batch_request_openai cfg oracle disk0 inputs =
      match resultLoop oracle (inputs.getLastD "") cfg.useCache cfg.maxRetry
          (futsOf 0 (pendOf cfg disk0 inputs))
          ⟨(pendOf cfg disk0 inputs).length,
           (pendOf cfg disk0 inputs).map (fun t => (⟨t.2.2, t.1, t.2.1⟩ : Call)),
           cdOf cfg disk0 inputs, disk0, [], []⟩ with
      | none => none
      | some st =>
        some ⟨(inputs.map (keyOf cfg)).map (dlookup st.dict), st.calls, st.writes, st.resolved,
          st.disk, st.dict⟩ := by
  simp only [batch_request_openai, submitLoop_eq, Nat.zero_add, List.nil_append, pendOf, cdOf]

lemma batch_isSome (cfg : Cfg) (oracle : Nat → Outcome) (disk0 : Dict) (inputs : List Input)
    (hm : 0 < cfg.maxRetry) :
    (batch_request_openai cfg oracle disk0 inputs).isSome := by
  rw [batch_unfold]
  have h := resultLoop_isSome oracle (inputs.getLastD "") cfg.useCache cfg.maxRetry hm
    (futsOf 0 (pendOf cfg disk0 inputs))
    ⟨(pendOf cfg disk0 inputs).length,
     (pendOf cfg disk0 inputs).map (fun t => (⟨t.2.2, t.1, t.2.1⟩ : Call)),
     cdOf cfg disk0 inputs, disk0, [], []⟩
  cases hres : resultLoop oracle (inputs.getLastD "") cfg.useCache cfg.maxRetry
      (futsOf 0 (pendOf cfg disk0 inputs))
      ⟨(pendOf cfg disk0 inputs).length,
       (pendOf cfg disk0 inputs).map (fun t => (⟨t.2.2, t.1, t.2.1⟩ : Call)),
       cdOf cfg disk0 inputs, disk0, [], []⟩ with
  | none =>
    rw [hres] at h
    simp at h
  | some st => simp [hres]

/-- Shape of a completed batch call, extracted from the phase lemmas: the
resolved log matches the pending entries pointwise, the final cache_dict is
the resolved pairs over the loaded cache, the write log is exactly the
resolved pairs when the cache is on, outputs are lookups of the full keys, and
every logged call is either an initial submission of a pending input or a
retry carrying the leaked last input. -/
lemma batch_some_spec (cfg : Cfg) (oracle : Nat → Outcome) (disk0 : Dict) (inputs : List Input)
    (rr : RunResult) (h : batch_request_openai cfg oracle disk0 inputs = some rr) :
    ∃ Δ : List Resolved,
      rr.resolved = Δ ∧
      Δ.map (fun e => (e.origIdx, e.key)) = (pendOf cfg disk0 inputs).map (fun t => (t.1, t.2.1)) ∧
      rr.dict = (Δ.map (fun e => (e.key, e.resp))).reverse ++ cdOf cfg disk0 inputs ∧
      rr.writes = (if cfg.useCache then Δ.map (fun e => (e.key, e.resp)) else []) ∧
      rr.outputs = (inputs.map (keyOf cfg)).map (dlookup rr.dict) ∧
      (∀ c ∈ rr.calls,
        (∃ t ∈ pendOf cfg disk0 inputs, c = (⟨t.2.2, t.1, t.2.1⟩ : Call)) ∨
        (∃ f ∈ futsOf 0 (pendOf cfg disk0 inputs),
          c.payload = inputs.getLastD "" ∧ c.slot = f.origIdx ∧ c.key = f.key)) := by
  rw [batch_unfold] at h
  cases hres : resultLoop oracle (inputs.getLastD "") cfg.useCache cfg.maxRetry
      (futsOf 0 (pendOf cfg disk0 inputs))
      ⟨(pendOf cfg disk0 inputs).length,
       (pendOf cfg disk0 inputs).map (fun t => (⟨t.2.2, t.1, t.2.1⟩ : Call)),
       cdOf cfg disk0 inputs, disk0, [], []⟩ with
  | none =>
    rw [hres] at h
    exact absurd h (by simp)
  | some st =>
    rw [hres] at h
    simp only [Option.some.injEq] at h
    subst h
    rcases resultLoop_spec oracle (inputs.getLastD "") cfg.useCache cfg.maxRetry
      (futsOf 0 (pendOf cfg disk0 inputs)) _ st hres with ⟨Δ, h1, h2, h3, h4, h5⟩
    simp only at h1 h2 h3 h4
    refine ⟨Δ, ?_, ?_, ?_, ?_, ?_, ?_⟩
    · simpa using h1
    · rw [h2, futsOf_map_pair]
    · simpa using h3
    · rw [h4]
      cases hu : cfg.useCache <;> simp
    · rfl
    · intro c hc
      rcases h5 c hc with hcin | ⟨f, hf, hp⟩
      · simp only at hcin
        rcases List.mem_map.mp hcin with ⟨t, ht, hct⟩
        exact Or.inl ⟨t, ht, hct.symm⟩
      · exact Or.inr ⟨f, hf, hp⟩

end AlignAnything

namespace AlignAnything

lemma dlookup_cdOf (cfg : Cfg) (disk0 : Dict) (inputs : List Input) (k : String) :
    dlookup (cdOf cfg disk0 inputs) k =
      if cfg.useCache ∧ k ∈ inputs.map (keyOf cfg) ∧ (load_cache disk0 k).isSome
      then load_cache disk0 k else none := by
  unfold cdOf
  cases hu : cfg.useCache with
  | false => simp [dlookup]
  | true =>
    rw [if_pos rfl, dlookup_loadPhase]
    simp

lemma mem_pendOf {cfg : Cfg} {disk0 : Dict} {inputs : List Input} {t : Nat × String × Input} :
    t ∈ pendOf cfg disk0 inputs ↔
      t ∈ zipIdx cfg 0 inputs ∧ dlookup (cdOf cfg disk0 inputs) t.2.1 = none := by
  unfold pendOf pend
  rw [List.mem_filter]
  simp [Option.isNone_iff_eq_none]

lemma zipIdx_entry_shape {cfg : Cfg} {inputs : List Input} {t : Nat × String × Input}
    (h : t ∈ zipIdx cfg 0 inputs) :
    inputs[t.1]? = some t.2.2 ∧ t.2.1 = keyOf cfg t.2.2 := by
  rcases mem_zipIdx.mp h with ⟨j, y, hy, ht⟩
  rw [ht]
  simpa using hy

lemma zipIdx_entry_of_getElem {cfg : Cfg} {inputs : List Input} {i : Nat} {x : Input}
    (h : inputs[i]? = some x) : (i, keyOf cfg x, x) ∈ zipIdx cfg 0 inputs :=
  mem_zipIdx.mpr ⟨i, x, h, by simp⟩

lemma zipIdx_key_mem {cfg : Cfg} {inputs : List Input} {t : Nat × String × Input}
    (h : t ∈ zipIdx cfg 0 inputs) : t.2.1 ∈ inputs.map (keyOf cfg) := by
  rcases zipIdx_entry_shape h with ⟨hg, hk⟩
  exact List.mem_map.mpr ⟨t.2.2, List.getElem?_mem hg, hk.symm⟩

/-- A pending entry has no persisted cache file: its key was absent from
cache_dict although the load phase fills every full key that has a file. -/
lemma pendOf_key_load_none {cfg : Cfg} {disk0 : Dict} {inputs : List Input}
    {t : Nat × String × Input} (ht : t ∈ pendOf cfg disk0 inputs)
    (hu : cfg.useCache = true) : load_cache disk0 t.2.1 = none := by
  rcases mem_pendOf.mp ht with ⟨hz, hcd⟩
  by_contra hne
  have hsome : (load_cache disk0 t.2.1).isSome := Option.isSome_iff_ne_none.mpr hne
  rw [dlookup_cdOf, if_pos ⟨hu, zipIdx_key_mem hz, hsome⟩] at hcd
  exact hne hcd

lemma pendOf_entry_of_not_cached {cfg : Cfg} {disk0 : Dict} {inputs : List Input}
    {i : Nat} {x : Input} (hx : inputs[i]? = some x)
    (hcd : dlookup (cdOf cfg disk0 inputs) (keyOf cfg x) = none) :
    (i, keyOf cfg x, x) ∈ pendOf cfg disk0 inputs :=
  mem_pendOf.mpr ⟨zipIdx_entry_of_getElem hx, hcd⟩

/-- C1: batch_request_openai returns a list whose length equals the input
length and whose i-th element is the result for the i-th request: the
persisted cache value of its key when one existed, else the response resolved
for its key, and every resolved entry of that key was computed for an input
equal to the i-th one.  The oracle is arbitrary, so this holds regardless of
completion contents and order. -/
theorem batch_request_openai_outputs_aligned (cfg : Cfg) (oracle : Nat → Outcome)
    (disk0 : Dict) (inputs : List Input) (rr : RunResult)
    (hsep : ∀ x ∈ inputs, ∀ y ∈ inputs, keyOf cfg x = keyOf cfg y → x = y)
    (hrun : batch_request_openai cfg oracle disk0 inputs = some rr) :
    rr.outputs.length = inputs.length ∧
    ∀ (i : Nat) (x : Input), inputs[i]? = some x →
      rr.outputs[i]? = some (expectedOut cfg.useCache disk0 rr.resolved (keyOf cfg x)) ∧
      (expectedOut cfg.useCache disk0 rr.resolved (keyOf cfg x)).isSome ∧
      ∀ e ∈ rr.resolved, e.key = keyOf cfg x → inputs[e.origIdx]? = some x := by
  rcases batch_some_spec cfg oracle disk0 inputs rr hrun with
    ⟨Δ, hres, hpair, hdict, hwrites, houts, hcalls⟩
  have hlen : rr.outputs.length = inputs.length := by
    rw [houts]
    simp
  refine ⟨hlen, ?_⟩
  intro i x hx
  have hkm : (inputs.map (keyOf cfg))[i]? = some (keyOf cfg x) := by
    rw [List.getElem?_map, hx]
    rfl
  have houti : rr.outputs[i]? = some (dlookup rr.dict (keyOf cfg x)) := by
    rw [houts, List.getElem?_map, hkm]
    rfl
  have hmemD : ∀ {k : String}, (∃ t ∈ pendOf cfg disk0 inputs, t.2.1 = k) →
      ∃ e ∈ Δ, e.key = k := by
    intro k hk
    rcases hk with ⟨t, ht, htk⟩
    have hmm : (t.1, k) ∈ Δ.map (fun e => (e.origIdx, e.key)) := by
      rw [hpair]
      exact List.mem_map.mpr ⟨t, ht, by rw [htk]⟩
    rcases List.mem_map.mp hmm with ⟨e, he, hepair⟩
    refine ⟨e, he, ?_⟩
    have h2 := congrArg Prod.snd hepair
    simpa using h2
  have hDmem : ∀ {e : Resolved}, e ∈ Δ →
      ∃ t ∈ pendOf cfg disk0 inputs, e.origIdx = t.1 ∧ e.key = t.2.1 := by
    intro e he
    have hmm : (e.origIdx, e.key) ∈ (pendOf cfg disk0 inputs).map (fun t => (t.1, t.2.1)) := by
      rw [← hpair]
      exact List.mem_map.mpr ⟨e, he, rfl⟩
    rcases List.mem_map.mp hmm with ⟨t, ht, htpair⟩
    have h1 := congrArg Prod.fst htpair
    have h2 := congrArg Prod.snd htpair
    simp only at h1 h2
    exact ⟨t, ht, h1.symm, h2.symm⟩
  have hnotboth : (Δ.filter (fun e => e.key == keyOf cfg x)).getLast? = none →
      dlookup (cdOf cfg disk0 inputs) (keyOf cfg x) ≠ none := by
    intro hlast hcd
    have hpend := pendOf_entry_of_not_cached hx hcd
    rcases hmemD ⟨(i, keyOf cfg x, x), hpend, rfl⟩ with ⟨e, he, hek⟩
    have hmemf : e ∈ Δ.filter (fun e => e.key == keyOf cfg x) :=
      List.mem_filter.mpr ⟨he, by simp [hek]⟩
    have hne : Δ.filter (fun e => e.key == keyOf cfg x) ≠ [] := by
      intro hnil
      rw [hnil] at hmemf
      exact absurd hmemf (List.not_mem_nil e)
    have hs := List.getLast?_isSome.mpr hne
    rw [hlast] at hs
    exact absurd hs (by simp)
  have hmain : ∃ r, dlookup rr.dict (keyOf cfg x) = some r ∧
      expectedOut cfg.useCache disk0 rr.resolved (keyOf cfg x) = some r := by
    unfold expectedOut
    rw [hres, hdict, dlookup_revmap_append]
    cases hlast : (Δ.filter (fun e => e.key == keyOf cfg x)).getLast? with
    | some e => exact ⟨e.resp, rfl, rfl⟩
    | none =>
      cases hcd : dlookup (cdOf cfg disk0 inputs) (keyOf cfg x) with
      | none => exact absurd hcd (hnotboth hlast)
      | some v =>
        refine ⟨v, rfl, ?_⟩
        have hcd2 := hcd
        rw [dlookup_cdOf] at hcd2
        by_cases hcond : cfg.useCache ∧ keyOf cfg x ∈ inputs.map (keyOf cfg) ∧
            (load_cache disk0 (keyOf cfg x)).isSome
        · rw [if_pos hcond] at hcd2
          rw [if_pos hcond.1, hcd2]
        · rw [if_neg hcond] at hcd2
          exact absurd hcd2 (by simp)
  rcases hmain with ⟨r, hd1, hd2⟩
  refine ⟨?_, ?_, ?_⟩
  · rw [houti, hd1, hd2]
  · rw [hd2]
    rfl
  · intro e he hek
    rw [hres] at he
    rcases hDmem he with ⟨t, ht, h1, h2⟩
    rcases mem_pendOf.mp ht with ⟨hz, _⟩
    rcases zipIdx_entry_shape hz with ⟨hg, hk⟩
    have hx2 : t.2.2 ∈ inputs := List.getElem?_mem hg
    have hxin : x ∈ inputs := List.getElem?_mem hx
    have hkeq : keyOf cfg t.2.2 = keyOf cfg x := by rw [← hk, ← h2, hek]
    have heq := hsep t.2.2 hx2 x hxin hkeq
    rw [h1, hg, heq]

/-- C2: a request whose computed key has a persisted cache entry at call start
contributes no network submission at all, and its output position returns the
persisted value. -/
theorem batch_request_openai_cached_requests_reused (cfg : Cfg) (oracle : Nat → Outcome)
    (disk0 : Dict) (inputs : List Input) (rr : RunResult) (i : Nat) (x : Input) (v : Resp)
    (hu : cfg.useCache = true)
    (hx : inputs[i]? = some x)
    (hcached : load_cache disk0 (keyOf cfg x) = some v)
    (hrun : batch_request_openai cfg oracle disk0 inputs = some rr) :
    rr.outputs[i]? = some (some v) ∧ ∀ c ∈ rr.calls, c.slot ≠ i := by
  rcases batch_some_spec cfg oracle disk0 inputs rr hrun with
    ⟨Δ, hres, hpair, hdict, hwrites, houts, hcalls⟩
  have hkmem : keyOf cfg x ∈ inputs.map (keyOf cfg) :=
    List.mem_map.mpr ⟨x, List.getElem?_mem hx, rfl⟩
  have hcd : dlookup (cdOf cfg disk0 inputs) (keyOf cfg x) = some v := by
    rw [dlookup_cdOf, if_pos ⟨hu, hkmem, by simp [hcached]⟩, hcached]
  have hnopend : ∀ t ∈ pendOf cfg disk0 inputs, t.2.1 ≠ keyOf cfg x := by
    intro t ht hk
    rcases mem_pendOf.mp ht with ⟨_, hcd2⟩
    rw [hk, hcd] at hcd2
    exact absurd hcd2 (by simp)
  have hfilter : Δ.filter (fun e => e.key == keyOf cfg x) = [] := by
    rw [List.eq_nil_iff_forall_not_mem]
    intro e hmem
    rcases List.mem_filter.mp hmem with ⟨he, hek⟩
    have hmm : (e.origIdx, e.key) ∈ (pendOf cfg disk0 inputs).map (fun t => (t.1, t.2.1)) := by
      rw [← hpair]
      exact List.mem_map.mpr ⟨e, he, rfl⟩
    rcases List.mem_map.mp hmm with ⟨t, ht, htp⟩
    have h2 := congrArg Prod.snd htp
    simp only at h2
    have hkx : e.key = keyOf cfg x := by simpa using hek
    exact hnopend t ht (by rw [h2, hkx])
  have hout : dlookup rr.dict (keyOf cfg x) = some v := by
    rw [hdict, dlookup_revmap_append, hfilter]
    simpa using hcd
  constructor
  · rw [houts, List.getElem?_map, List.getElem?_map, hx]
    simp [hout]
  · intro c hc hslot
    rcases hcalls c hc with ⟨t, ht, hct⟩ | ⟨f, hf, hp1, hp2, hp3⟩
    · have ht1 : t.1 = i := by
        rw [hct] at hslot
        simpa using hslot
      rcases mem_pendOf.mp ht with ⟨hz, _⟩
      rcases zipIdx_entry_shape hz with ⟨hg, hk⟩
      rw [ht1, hx] at hg
      have hxt : x = t.2.2 := Option.some.inj hg
      exact hnopend t ht (by rw [hk, ← hxt])
    · rcases mem_futsOf hf with ⟨t, ht, h1, h2⟩
      have ht1 : t.1 = i := by
        rw [hp2] at hslot
        rw [← h1]
        exact hslot
      rcases mem_pendOf.mp ht with ⟨hz, _⟩
      rcases zipIdx_entry_shape hz with ⟨hg, hk⟩
      rw [ht1, hx] at hg
      have hxt : x = t.2.2 := Option.some.inj hg
      exact hnopend t ht (by rw [hk, ← hxt])

end AlignAnything

namespace AlignAnything

/-- C5 (amended): a key with a persisted cache entry at call start receives no
network call at all during the batch.  Deduplication of identical keys inside
one input list does not exist, so the at-most-once guarantee holds only
through the persisted cache. -/
theorem batch_request_openai_no_call_for_persisted_key (cfg : Cfg) (oracle : Nat → Outcome)
    (disk0 : Dict) (inputs : List Input) (rr : RunResult) (k : String) (v : Resp)
    (hu : cfg.useCache = true)
    (hcached : load_cache disk0 k = some v)
    (hrun : batch_request_openai cfg oracle disk0 inputs = some rr) :
    ∀ c ∈ rr.calls, c.key ≠ k := by
  rcases batch_some_spec cfg oracle disk0 inputs rr hrun with
    ⟨Δ, hres, hpair, hdict, hwrites, houts, hcalls⟩
  intro c hc hck
  have hpendkey : ∃ t ∈ pendOf cfg disk0 inputs, t.2.1 = k := by
    rcases hcalls c hc with ⟨t, ht, hct⟩ | ⟨f, hf, hp1, hp2, hp3⟩
    · refine ⟨t, ht, ?_⟩
      rw [hct] at hck
      simpa using hck
    · rcases mem_futsOf hf with ⟨t, ht, h1, h2⟩
      exact ⟨t, ht, by rw [← h2, ← hp3, hck]⟩
  rcases hpendkey with ⟨t, ht, htk⟩
  have hl := pendOf_key_load_none ht hu
  rw [htk, hcached] at hl
  exact absurd hl (by simp)

/-- C7 (amended): every write of the batch targets a key that had no persisted
file at call start, so preexisting cache files are never rewritten; one write
happens per resolved future, so when the full keys are pairwise distinct there
is exactly one write per newly resolved key, and the key of every non-cached
input does get written. -/
theorem batch_request_openai_write_discipline (cfg : Cfg) (oracle : Nat → Outcome)
    (disk0 : Dict) (inputs : List Input) (rr : RunResult)
    (hu : cfg.useCache = true)
    (hrun : batch_request_openai cfg oracle disk0 inputs = some rr) :
    (∀ p ∈ rr.writes, load_cache disk0 p.1 = none) ∧
    ((inputs.map (keyOf cfg)).Nodup → (rr.writes.map (fun p => p.1)).Nodup) ∧
    (∀ (i : Nat) (x : Input), inputs[i]? = some x →
      load_cache disk0 (keyOf cfg x) = none →
      keyOf cfg x ∈ rr.writes.map (fun p => p.1)) := by
  rcases batch_some_spec cfg oracle disk0 inputs rr hrun with
    ⟨Δ, hres, hpair, hdict, hwrites, houts, hcalls⟩
  rw [hu] at hwrites
  simp only [if_true] at hwrites
  have hkeys : rr.writes.map (fun p => p.1) = Δ.map (fun e => e.key) := by
    rw [hwrites, List.map_map]
    rfl
  have hpkeys : Δ.map (fun e => e.key) = (pendOf cfg disk0 inputs).map (fun t => t.2.1) := by
    have hc := congrArg (List.map Prod.snd) hpair
    simpa [List.map_map, Function.comp] using hc
  refine ⟨?_, ?_, ?_⟩
  · intro p hp
    rw [hwrites] at hp
    rcases List.mem_map.mp hp with ⟨e, he, hep⟩
    have hk : e.key ∈ (pendOf cfg disk0 inputs).map (fun t => t.2.1) := by
      rw [← hpkeys]
      exact List.mem_map.mpr ⟨e, he, rfl⟩
    rcases List.mem_map.mp hk with ⟨t, ht, htk⟩
    have := pendOf_key_load_none ht hu
    rw [htk] at this
    rw [← hep]
    exact this
  · intro hnd
    rw [hkeys, hpkeys]
    have hsub : (pendOf cfg disk0 inputs).map (fun t => t.2.1) |>.Sublist
        ((zipIdx cfg 0 inputs).map (fun t => t.2.1)) :=
      List.Sublist.map _ (List.filter_sublist _)
    rw [zipIdx_map_key] at hsub
    exact hsub.nodup hnd
  · intro i x hx hload
    have hcd : dlookup (cdOf cfg disk0 inputs) (keyOf cfg x) = none := by
      rw [dlookup_cdOf, if_neg]
      rintro ⟨-, -, hs⟩
      rw [hload] at hs
      exact absurd hs (by simp)
    have hpend := pendOf_entry_of_not_cached hx hcd
    rw [hkeys, hpkeys]
    exact List.mem_map.mpr ⟨(i, keyOf cfg x, x), hpend, rfl⟩

lemma countP_calls_flatMap (m : Nat) (leaked : Input) (futs : List Fut) (i : Nat) :
    (futs.flatMap (fun f => List.replicate m (⟨leaked, f.origIdx, f.key⟩ : Call))).countP
      (fun c => c.slot == i) = m * futs.countP (fun f => f.origIdx == i) := by
  induction futs with
  | nil => simp
  | cons f rest ih =>
    rw [List.flatMap_cons, List.countP_append, ih, List.countP_replicate, List.countP_cons]
    by_cases hf : f.origIdx = i
    · have hb : (f.origIdx == i) = true := by simp [hf]
      simp only [hb, if_true]
      rw [Nat.mul_succ]
      omega
    · have hb : (f.origIdx == i) = false := by simp [hf]
      simp only [hb, Bool.false_eq_true, if_false, Nat.add_zero, Nat.zero_add]

lemma countP_futsOf (c : Nat) (l : List (Nat × String × Input)) (i : Nat) :
    (futsOf c l).countP (fun f => f.origIdx == i) = l.countP (fun t => t.1 == i) := by
  induction l generalizing c with
  | nil => rfl
  | cons t rest ih =>
    simp only [futsOf]
    rw [List.countP_cons, List.countP_cons, ih]

lemma dlookup_append_const (L d : Dict) (k : String) (v : Resp)
    (hex : ∃ p ∈ L, p.1 = k) (hall : ∀ p ∈ L, p.2 = v) :
    dlookup (L ++ d) k = some v := by
  rw [dlookup_append]
  cases hf : L.find? (fun p => p.1 == k) with
  | some p =>
    have hpm := List.mem_of_find?_eq_some hf
    simp [hall p hpm]
  | none =>
    rcases hex with ⟨p, hpL, hpk⟩
    have := List.find?_eq_none.mp hf p hpL
    simp [hpk] at this

end AlignAnything

namespace AlignAnything

/-- C3 (amended): a request that fails on every attempt generates exactly
maxRetry + 1 network submissions on its behalf, namely the initial one plus
one per observed failure, the last submission never being awaited; its entry
in the returned list is the captured-error record, not a raised exception. -/
theorem batch_request_openai_always_failing_attempts (cfg : Cfg) (e : String)
    (disk0 : Dict) (inputs : List Input) (rr : RunResult) (i : Nat) (x : Input)
    (hm : 0 < cfg.maxRetry)
    (hx : inputs[i]? = some x)
    (hnc : cfg.useCache = false ∨ load_cache disk0 (keyOf cfg x) = none)
    (hrun : batch_request_openai cfg (fun _ => Outcome.exn e) disk0 inputs = some rr) :
    (rr.calls.filter (fun c => c.slot == i)).length = cfg.maxRetry + 1 ∧
    rr.outputs[i]? = some (some (Resp.errorRec e)) := by
  have hcd : dlookup (cdOf cfg disk0 inputs) (keyOf cfg x) = none := by
    rw [dlookup_cdOf]
    rcases hnc with hnc | hnc
    · rw [if_neg]
      rintro ⟨h1, -, -⟩
      rw [hnc] at h1
      exact absurd h1 (by simp)
    · rw [if_neg]
      rintro ⟨-, -, h3⟩
      rw [hnc] at h3
      exact absurd h3 (by simp)
  have hpend := pendOf_entry_of_not_cached hx hcd
  rw [batch_unfold] at hrun
  rcases resultLoop_exn e (inputs.getLastD "") cfg.useCache cfg.maxRetry hm
      (futsOf 0 (pendOf cfg disk0 inputs))
      ⟨(pendOf cfg disk0 inputs).length,
       (pendOf cfg disk0 inputs).map (fun t => (⟨t.2.2, t.1, t.2.1⟩ : Call)),
       cdOf cfg disk0 inputs, disk0, [], []⟩ with ⟨st2, hrl, hcalls, hdict⟩
  rw [hrl] at hrun
  simp only [Option.some.injEq] at hrun
  subst hrun
  simp only at hcalls hdict
  constructor
  · show ((st2.calls).filter (fun c => c.slot == i)).length = cfg.maxRetry + 1
    rw [← List.countP_eq_length_filter]
    rw [hcalls, List.countP_append, countP_calls_flatMap, countP_futsOf]
    rw [List.countP_map]
    have hcomp : ((fun c : Call => c.slot == i) ∘ fun t : Nat × String × Input =>
        (⟨t.2.2, t.1, t.2.1⟩ : Call)) = fun t => t.1 == i := by
      funext t
      rfl
    rw [hcomp]
    have hone : (pendOf cfg disk0 inputs).countP (fun t => t.1 == i) = 1 := by
      have hle : (pendOf cfg disk0 inputs).countP (fun t => t.1 == i) ≤
          (zipIdx cfg 0 inputs).countP (fun t => t.1 == i) :=
        List.Sublist.countP_le _ (List.filter_sublist _)
      have hz : (zipIdx cfg 0 inputs).countP (fun t => t.1 == i) ≤ 1 := by
        have h1 : (zipIdx cfg 0 inputs).countP (fun t => t.1 == i) =
            List.count i ((zipIdx cfg 0 inputs).map (fun t => t.1)) := by
          rw [List.count_eq_countP, List.countP_map]
          rfl
        rw [h1, zipIdx_map_fst]
        exact List.nodup_iff_count_le_one.mp (List.nodup_range' _ _) i
      have hge : 0 < (pendOf cfg disk0 inputs).countP (fun t => t.1 == i) :=
        List.countP_pos_iff.mpr ⟨(i, keyOf cfg x, x), hpend, by simp⟩
      omega
    rw [hone]
    omega
  · show ((inputs.map (keyOf cfg)).map (dlookup st2.dict))[i]? =
      some (some (Resp.errorRec e))
    have hkf : keyOf cfg x ∈ (futsOf 0 (pendOf cfg disk0 inputs)).map (fun f => f.key) := by
      rw [futsOf_map_key]
      exact List.mem_map.mpr ⟨(i, keyOf cfg x, x), hpend, rfl⟩
    rcases List.mem_map.mp hkf with ⟨f, hf, hfk⟩
    have hout : dlookup st2.dict (keyOf cfg x) = some (Resp.errorRec e) := by
      rw [hdict]
      apply dlookup_append_const
      · refine ⟨(f.key, Resp.errorRec e), ?_, by simpa using hfk⟩
        rw [List.mem_reverse]
        exact List.mem_map.mpr ⟨f, hf, rfl⟩
      · intro p hp
        rw [List.mem_reverse] at hp
        rcases List.mem_map.mp hp with ⟨f2, hf2, hfp⟩
        rw [← hfp]
    rw [List.getElem?_map, List.getElem?_map, hx]
    simp [hout]

end AlignAnything

namespace AlignAnything

/-- Identity stand-in for the external sha256 hexdigest in concrete runs.  The
collisions exhibited below do not depend on it: they already occur in the
pre-hash key string, so they occur for sha256 equally. -/
def idHash : String → String := fun s => s

/-- A concrete configuration for the closed runs: type t, model m, kwargs kw,
api key ak, base url bu, the given retry bound, cache enabled. -/
def cfgW (m : Nat) : Cfg := ⟨idHash, "t", "m", "kw", "ak", "bu", m, true⟩

/-- C4 (code bug): with two requests where the first fails once, the retry
resubmits the message list of the last input rather than the one that failed:
the loop variable of the submission loop leaks into the exception branch.  The
call log shows payload B submitted on behalf of slot 0, whose request was A. -/
theorem batch_request_openai_retry_resubmits_leaked_input :
    (batch_request_openai (cfgW 5)
        (fun n => if n == 0 then Outcome.exn "boom" else Outcome.ok ("r" ++ toString n))
        [] ["A", "B"]).map
      (fun rr => rr.calls.map (fun c => (c.payload, c.slot))) =
      some [("A", 0), ("B", 1), ("B", 0)] ∧ ("B" : String) ≠ "A" := by
  constructor
  · rfl
  · decide

/-- C3 (counterexample): with maxRetry = 2 and the second of three requests
failing on every attempt, that request generates three network submissions,
not two: the initial one plus two retries, the last retry never being awaited.
The output still holds the error record in position 2 and successes in
positions 1 and 3. -/
theorem batch_request_openai_retry_attempt_count_cex :
    (batch_request_openai (cfgW 2)
        (fun n => if n == 0 then Outcome.ok "r0" else if n == 2 then Outcome.ok "r2"
          else Outcome.exn "boom")
        [] ["A", "B", "C"]).map
      (fun rr => ((rr.calls.filter (fun c => c.slot == 1)).length, rr.outputs)) =
      some (3, [some (Resp.success "r0"), some (Resp.errorRec "boom"),
        some (Resp.success "r2")]) ∧ (3 : Nat) ≠ 2 := by
  constructor
  · rfl
  · decide

/-- C5 (counterexample): two requests with identical computed cache keys, the
key not being cached on disk, each trigger their own network call in the same
batch: two calls are issued for one distinct key within one process. -/
theorem batch_request_openai_duplicate_key_two_calls_cex :
    (batch_request_openai (cfgW 5) (fun n => Outcome.ok ("r" ++ toString n)) [] ["A", "A"]).map
      (fun rr => rr.calls.map (fun c => c.key)) =
      some ["t_m_A_kw_ak_bu", "t_m_A_kw_ak_bu"] ∧ (2 : Nat) ≠ 1 := by
  constructor
  · rfl
  · decide

/-- C7 (counterexample): two requests with the same new key cause two writes
to the same cache file within one batch call, with different contents; the
second write overwrites the file created by the first, as the final directory
content shows. -/
theorem batch_request_openai_overwrites_cache_file_cex :
    (batch_request_openai (cfgW 5) (fun n => Outcome.ok ("r" ++ toString n)) [] ["A", "A"]).map
      (fun rr => (rr.writes, load_cache rr.disk "t_m_A_kw_ak_bu")) =
      some ([("t_m_A_kw_ak_bu", Resp.success "r0"), ("t_m_A_kw_ak_bu", Resp.success "r1")],
        some (Resp.success "r1")) ∧ Resp.success "r0" ≠ Resp.success "r1" := by
  constructor
  · rfl
  · decide

/-- C6 (counterexample): two semantically distinct requests collide on the
same cache key: request type A with model B_c yields the same underscore
joined key string as type A_B with model c, hence the same digest and the
same cache file; the identity stand-in makes the collision visible, and it
holds for sha256 equally because the pre-hash strings are already equal. -/
theorem generate_key_distinct_requests_collide_cex :
    generate_key idHash "A" "B_c" "kw" "ak" "bu" "i" =
      generate_key idHash "A_B" "c" "kw" "ak" "bu" "i" ∧
    ("A", "B_c") ≠ (("A_B", "c") : String × String) := by
  constructor
  · rfl
  · decide

lemma underscore_append_cancel {a b r s : List Char}
    (ha : '_' ∉ a) (hb : '_' ∉ b)
    (h : a ++ '_' :: r = b ++ '_' :: s) : a = b ∧ r = s := by
  induction a generalizing b with
  | nil =>
    cases b with
    | nil => simpa using h
    | cons c bs =>
      simp only [List.nil_append, List.cons_append, List.cons.injEq] at h
      exfalso
      apply hb
      rw [← h.1]
      exact List.mem_cons_self _ _
  | cons c as ih =>
    cases b with
    | nil =>
      simp only [List.cons_append, List.nil_append, List.cons.injEq] at h
      exfalso
      apply ha
      rw [h.1]
      exact List.mem_cons_self _ _
    | cons d bs =>
      simp only [List.cons_append, List.cons.injEq] at h
      have ha2 : '_' ∉ as := fun hm => ha (List.mem_cons_of_mem _ hm)
      have hb2 : '_' ∉ bs := fun hm => hb (List.mem_cons_of_mem _ hm)
      rcases ih ha2 hb2 h.2 with ⟨h3, h4⟩
      exact ⟨by rw [h.1, h3], h4⟩

/-- When its first five fields contain no underscore, the underscore-joined
key string determines every field uniquely. -/
lemma keyString_inj {ty model input kwargs apiKeys baseUrl
    ty2 model2 input2 kwargs2 apiKeys2 baseUrl2 : String}
    (h1 : '_' ∉ ty.data) (h2 : '_' ∉ model.data) (h3 : '_' ∉ input.data)
    (h4 : '_' ∉ kwargs.data) (h5 : '_' ∉ apiKeys.data)
    (g1 : '_' ∉ ty2.data) (g2 : '_' ∉ model2.data) (g3 : '_' ∉ input2.data)
    (g4 : '_' ∉ kwargs2.data) (g5 : '_' ∉ apiKeys2.data)
    (h : keyString ty model input kwargs apiKeys baseUrl =
      keyString ty2 model2 input2 kwargs2 apiKeys2 baseUrl2) :
    ty = ty2 ∧ model = model2 ∧ input = input2 ∧ kwargs = kwargs2 ∧
      apiKeys = apiKeys2 ∧ baseUrl = baseUrl2 := by
  have hd := congrArg String.data h
  have hu : ("_" : String).data = ['_'] := rfl
  simp only [keyString, String.data_append, hu, List.append_assoc,
    List.singleton_append] at hd
  rcases underscore_append_cancel h1 g1 hd with ⟨e1, hd2⟩
  rcases underscore_append_cancel h2 g2 hd2 with ⟨e2, hd3⟩
  rcases underscore_append_cancel h3 g3 hd3 with ⟨e3, hd4⟩
  rcases underscore_append_cancel h4 g4 hd4 with ⟨e4, hd5⟩
  rcases underscore_append_cancel h5 g5 hd5 with ⟨e5, hd6⟩
  exact ⟨String.ext e1, String.ext e2, String.ext e3, String.ext e4, String.ext e5,
    String.ext hd6⟩

/-- C6 (amended): the cache key is a deterministic function of the request
type, model, serialized input, extra parameters and credential identity by
construction, and it separates distinct requests provided the digest is
collision-free on key strings and the joined fields contain no underscore;
without that proviso distinct requests can collide on one cache file. -/
theorem generate_key_deterministic_and_separating (hash : String → String)
    (hinj : Function.Injective hash)
    (ty model input kwargs apiKeys baseUrl
      ty2 model2 input2 kwargs2 apiKeys2 baseUrl2 : String)
    (h1 : '_' ∉ ty.data) (h2 : '_' ∉ model.data) (h3 : '_' ∉ input.data)
    (h4 : '_' ∉ kwargs.data) (h5 : '_' ∉ apiKeys.data)
    (g1 : '_' ∉ ty2.data) (g2 : '_' ∉ model2.data) (g3 : '_' ∉ input2.data)
    (g4 : '_' ∉ kwargs2.data) (g5 : '_' ∉ apiKeys2.data)
    (heq : generate_key hash ty model kwargs apiKeys baseUrl input =
      generate_key hash ty2 model2 kwargs2 apiKeys2 baseUrl2 input2) :
    ty = ty2 ∧ model = model2 ∧ input = input2 ∧ kwargs = kwargs2 ∧
      apiKeys = apiKeys2 ∧ baseUrl = baseUrl2 :=
  keyString_inj h1 h2 h3 h4 h5 g1 g2 g3 g4 g5 (hinj heq)

end AlignAnything

namespace AlignAnything

lemma fsLookup_cons (nm : String) (d : Dict) (fs : FileSys) (q : String) :
    fsLookup ((nm, d) :: fs) q = if nm == q then some d else fsLookup fs q := by
  by_cases h : nm == q
  · simp [fsLookup, List.find?_cons_of_pos, h]
  · simp only [Bool.not_eq_true] at h
    simp [fsLookup, List.find?_cons_of_neg, h]

lemma fsLookup_update (fs : FileSys) (dir : String) (newd : Dict) (q : String) :
    fsLookup (fs.map (fun p => if p.1 == dir then (p.1, newd) else p)) q =
      if q = dir then (fsLookup fs dir).map (fun _ => newd) else fsLookup fs q := by
  induction fs with
  | nil =>
    simp only [List.map_nil]
    by_cases hq : q = dir <;> simp [hq, fsLookup]
  | cons p fs ih =>
    obtain ⟨nm, dd⟩ := p
    simp only [List.map_cons]
    by_cases hp : nm = dir
    · subst hp
      simp only [beq_self_eq_true, if_true, fsLookup_cons, ih]
      by_cases hq : nm = q
      · subst hq
        simp
      · have hb : (nm == q) = false := by simp [hq]
        have hqd : ¬ q = nm := fun hh => hq hh.symm
        simp [hb, hqd]
    · have hb : (nm == dir) = false := by simp [hp]
      simp only [hb, Bool.false_eq_true, if_false, fsLookup_cons, ih]
      by_cases hq : nm = q
      · subst hq
        simp [hp]
      · have hb2 : (nm == q) = false := by simp [hq]
        simp [hb2]

lemma removeFiles_of_subset (names : List String) :
    ∀ d : Dict, (∀ p ∈ d, p.1 ∈ names) → removeFiles names d = [] := by
  induction names with
  | nil =>
    intro d hd
    have : d = [] := by
      rw [List.eq_nil_iff_forall_not_mem]
      intro p hp
      exact absurd (hd p hp) (List.not_mem_nil _)
    rw [this]
    rfl
  | cons n ns ih =>
    intro d hd
    show removeFiles ns (d.filter (fun p => ¬ p.1 == n)) = []
    apply ih
    intro p hp
    rcases List.mem_filter.mp hp with ⟨hpd, hpn⟩
    rcases List.mem_cons.mp (hd p hpd) with h | h
    · exfalso
      rw [h] at hpn
      simp at hpn
    · exact h

lemma removeFiles_self (d : Dict) : removeFiles (d.map (fun q => q.1)) d = [] :=
  removeFiles_of_subset _ d (fun p hp => List.mem_map.mpr ⟨p, hp, rfl⟩)

/-- C8: clean_cache empties exactly the given directory, removing all and only
the files present there at call time and leaving every other directory
untouched; a subsequent batch run sharing the now empty directory recomputes
every entry, resolving one fresh future per input in input order. -/
theorem clean_cache_spec (fs : FileSys) (dir : String) (fs2 : FileSys)
    (cfg : Cfg) (oracle : Nat → Outcome) (inputs : List Input)
    (d2 : Dict) (rr : RunResult)
    (hclean : clean_cache fs dir = some fs2)
    (hdir : fsLookup fs2 dir = some d2)
    (hrun : batch_request_openai cfg oracle d2 inputs = some rr) :
    fsLookup fs2 dir = some [] ∧
    (∀ d3, d3 ≠ dir → fsLookup fs2 d3 = fsLookup fs d3) ∧
    rr.resolved.map (fun e => e.origIdx) = List.range inputs.length := by
  unfold clean_cache at hclean
  cases hfd : fsLookup fs dir with
  | none =>
    rw [hfd] at hclean
    exact absurd hclean (by simp)
  | some files =>
    rw [hfd] at hclean
    simp only [Option.some.injEq] at hclean
    subst hclean
    have hempty : fsLookup
        (fs.map (fun p => if p.1 == dir then
          (p.1, removeFiles (files.map (fun q => q.1)) files) else p)) dir = some [] := by
      rw [fsLookup_update, if_pos rfl, hfd]
      simp [removeFiles_self]
    have hframe : ∀ d3, d3 ≠ dir → fsLookup
        (fs.map (fun p => if p.1 == dir then
          (p.1, removeFiles (files.map (fun q => q.1)) files) else p)) d3 = fsLookup fs d3 := by
      intro d3 hd3
      rw [fsLookup_update, if_neg hd3]
    have hd2nil : d2 = [] := by
      rw [hdir] at hempty
      exact Option.some.inj hempty
    subst hd2nil
    refine ⟨hempty, hframe, ?_⟩
    rcases batch_some_spec cfg oracle [] inputs rr hrun with
      ⟨Δ, hres, hpair, hdict, hwrites, houts, hcalls⟩
    have hpendall : pendOf cfg [] inputs = zipIdx cfg 0 inputs := by
      unfold pendOf pend
      apply List.filter_eq_self.mpr
      intro t ht
      rw [dlookup_cdOf, if_neg]
      · rfl
      · rintro ⟨-, -, hs⟩
        have : load_cache [] t.2.1 = none := rfl
        rw [this] at hs
        exact absurd hs (by simp)
    have hmapfst : Δ.map (fun e => e.origIdx) = (zipIdx cfg 0 inputs).map (fun t => t.1) := by
      have hc := congrArg (List.map Prod.fst) hpair
      rw [hpendall] at hc
      simpa [List.map_map, Function.comp] using hc
    rw [hres, hmapfst, zipIdx_map_fst, List.range_eq_range']

end AlignAnything

namespace AlignAnything

/-- Oracle with every call succeeding, values distinct per submission. -/
def oracleOk : Nat → Outcome := fun n => Outcome.ok ("r" ++ toString n)

/-- Oracle with every call raising. -/
def oracleExn : Nat → Outcome := fun _ => Outcome.exn "boom"

def emptyRun : RunResult := ⟨[], [], [], [], [], []⟩

/-- The concrete run of two fresh requests with an all-success oracle. -/
def runW1 : RunResult := (batch_request_openai (cfgW 5) oracleOk [] ["A", "B"]).getD emptyRun

/-- Disk holding a persisted entry for request A under its computed key. -/
def diskW : Dict := [(keyOf (cfgW 5) "A" ++ ".txt", Resp.success "cached")]

/-- The concrete run of requests A and B with A persisted on disk. -/
def runW2 : RunResult :=
  (batch_request_openai (cfgW 5) oracleOk diskW ["A", "B"]).getD emptyRun

/-- The concrete run of two requests under the all-failing oracle with retry
bound two. -/
def runW3 : RunResult := (batch_request_openai (cfgW 2) oracleExn [] ["A", "B"]).getD emptyRun

theorem batch_request_openai_outputs_aligned_witness :
    runW1.outputs.length = (["A", "B"] : List Input).length ∧
    ∀ (i : Nat) (x : Input), (["A", "B"] : List Input)[i]? = some x →
      runW1.outputs[i]? = some (expectedOut true [] runW1.resolved (keyOf (cfgW 5) x)) ∧
      (expectedOut true [] runW1.resolved (keyOf (cfgW 5) x)).isSome ∧
      ∀ e ∈ runW1.resolved, e.key = keyOf (cfgW 5) x →
        (["A", "B"] : List Input)[e.origIdx]? = some x :=
  batch_request_openai_outputs_aligned (cfgW 5) oracleOk [] ["A", "B"] runW1
    (by decide) rfl

theorem batch_request_openai_cached_requests_reused_witness :
    runW2.outputs[0]? = some (some (Resp.success "cached")) ∧
    ∀ c ∈ runW2.calls, c.slot ≠ 0 :=
  batch_request_openai_cached_requests_reused (cfgW 5) oracleOk diskW ["A", "B"] runW2 0 "A"
    (Resp.success "cached") rfl rfl rfl rfl

theorem batch_request_openai_always_failing_attempts_witness :
    (runW3.calls.filter (fun c => c.slot == 0)).length = (cfgW 2).maxRetry + 1 ∧
    runW3.outputs[0]? = some (some (Resp.errorRec "boom")) :=
  batch_request_openai_always_failing_attempts (cfgW 2) "boom" [] ["A", "B"] runW3 0 "A"
    (by decide) rfl (Or.inr rfl) rfl

theorem batch_request_openai_no_call_for_persisted_key_witness :
    (Call.mk "B" 1 (keyOf (cfgW 5) "B")).key ≠ keyOf (cfgW 5) "A" :=
  batch_request_openai_no_call_for_persisted_key (cfgW 5) oracleOk diskW ["A", "B"] runW2
    (keyOf (cfgW 5) "A") (Resp.success "cached") rfl rfl rfl
    (Call.mk "B" 1 (keyOf (cfgW 5) "B")) (by decide)

theorem batch_request_openai_write_discipline_witness :
    (∀ p ∈ runW2.writes, load_cache diskW p.1 = none) ∧
    (((["A", "B"] : List Input).map (keyOf (cfgW 5))).Nodup →
      (runW2.writes.map (fun p => p.1)).Nodup) ∧
    (∀ (i : Nat) (x : Input), (["A", "B"] : List Input)[i]? = some x →
      load_cache diskW (keyOf (cfgW 5) x) = none →
      keyOf (cfgW 5) x ∈ runW2.writes.map (fun p => p.1)) :=
  batch_request_openai_write_discipline (cfgW 5) oracleOk diskW ["A", "B"] runW2 rfl rfl

theorem generate_key_deterministic_and_separating_witness :
    ("A" : String) = "A" ∧ ("B" : String) = "B" ∧ ("i" : String) = "i" ∧
    ("kw" : String) = "kw" ∧ ("ak" : String) = "ak" ∧ ("bu" : String) = "bu" :=
  generate_key_deterministic_and_separating idHash (fun _ _ h => h)
    "A" "B" "i" "kw" "ak" "bu" "A" "B" "i" "kw" "ak" "bu"
    (by decide) (by decide) (by decide) (by decide) (by decide)
    (by decide) (by decide) (by decide) (by decide) (by decide) rfl

/-- A file system with a cache directory holding one file and one unrelated
directory. -/
def fsW : FileSys := [("cache", [("k.txt", Resp.success "old")]), ("other", [])]

def fsW2 : FileSys := (clean_cache fsW "cache").getD []

/-- The concrete recompute run over the cleaned directory. -/
def runW8 : RunResult := (batch_request_openai (cfgW 5) oracleOk [] ["A"]).getD emptyRun

theorem clean_cache_spec_witness :
    fsLookup fsW2 "cache" = some [] ∧
    (∀ d3, d3 ≠ "cache" → fsLookup fsW2 d3 = fsLookup fsW d3) ∧
    runW8.resolved.map (fun e => e.origIdx) = List.range (["A"] : List Input).length :=
  clean_cache_spec fsW "cache" fsW2 (cfgW 5) oracleOk ["A"] [] runW8 rfl rfl rfl

end AlignAnything

namespace MMMU

/-- Character code 39, the single quote Python repr puts around list items. -/
def quoteChar : Char := Char.ofNat 39

def isBracket (c : Char) : Bool := c == '[' || c == ']'

/-- Python strip with the bracket character set: drop leading and trailing
brackets. -/
def pyStrip (s : List Char) : List Char :=
  ((s.dropWhile isBracket).reverse.dropWhile isBracket).reverse

/-- Python split specialised to the comma-space separator: split at each
non-overlapping occurrence, scanning left to right. -/
def splitCommaSpace : List Char → List (List Char)
  | [] => [[]]
  | ',' :: ' ' :: rest => [] :: splitCommaSpace rest
  | c :: rest =>
    match splitCommaSpace rest with
    | [] => [[c]]
    | h :: t => (c :: h) :: t

/-- Models get_answer: strip the brackets of the serialized options, delete
the quote characters, split on comma-space, and take the element at the
position of the answer letter relative to letter A (ord minus 65). -/
def get_answer (answer : Char) (options : String) : String :=
  let data_list :=
    splitCommaSpace ((pyStrip options.toList).filter (fun c => ¬ c == quoteChar))
  String.mk (data_list.getD (answer.toNat - 65) [])

/-- Models judger, the Python substring test: some offset of the response
starts with the reference answer. -/
def judger (correct_answer response : String) : Bool :=
  (List.range (response.toList.length + 1)).any
    (fun i => correct_answer.toList.isPrefixOf (response.toList.drop i))

/-- One MMMU test item as the evaluator reads it: the question id, the
question text, the serialized options string and the answer letter. -/
structure TestItem where
  id : String
  question : String
  options : String
  answer : Char
deriving DecidableEq, Repr

/-- One inference output as the evaluator reads it. -/
structure OutputItem where
  question_id : String
  prompt : String
  response : List String
deriving DecidableEq, Repr

/-- One detail row written by save_detail, with the question id kept as ghost
data. -/
structure Row where
  qid : String
  question : String
  prompt : String
  correct_answer : String
  response : String
  flag : Bool
deriving DecidableEq, Repr

/-- State of the evaluator loops: the two counters, the seen-id set and the
ghost list of detail rows. -/
structure EvalSt where
  num_match : Nat
  num_sum : Nat
  seen : List String
  rows : List Row
deriving DecidableEq, Repr

/-- The detail row produced for a matched pair. -/
def mkRow (t : TestItem) (o : OutputItem) : Row :=
  let ca := get_answer t.answer t.options
  let resp := o.response.headD ""
  ⟨o.question_id, t.question, o.prompt, ca, resp, judger ca resp⟩

/-- One inner-loop step of evaluator for a fixed test item: ids must match and
the question id must be fresh; then the id is recorded, the row is scored and
the counters advance. -/
def stepInner (t : TestItem) (st : EvalSt) (o : OutputItem) : EvalSt :=
  if t.id == o.question_id && !(st.seen.contains o.question_id) then
    { num_match := st.num_match + (if (mkRow t o).flag then 1 else 0)
      num_sum := st.num_sum + 1
      seen := st.seen ++ [o.question_id]
      rows := st.rows ++ [mkRow t o] }
  else st

/-- Models evaluator: nested loops over the test set and the outputs. -/
def evaluator (test_dataset : List TestItem) (output_data : List OutputItem) : EvalSt :=
  test_dataset.foldl (fun st t => output_data.foldl (stepInner t) st) ⟨0, 0, [], []⟩

/-- Models the accuracy computed in main: num_match divided by num_sum, as
exact division. -/
def mainAccuracy (num_match num_sum : Nat) : ℚ := (num_match : ℚ) / (num_sum : ℚ)

/-- Python repr of a list of strings, the form in which the MMMU options field
serializes the options list (for options without embedded quote characters). -/
def reprOptions (opts : List String) : String :=
  "[" ++ String.intercalate ", " (opts.map (fun s =>
    String.singleton quoteChar ++ s ++ String.singleton quoteChar)) ++ "]"

end MMMU

namespace MMMU

/-- Invariant of the evaluator loops: the counters count the rows and the
matched rows, the seen set is exactly the row ids, ids are distinct, and every
row was built from a matching pair of the full lists. -/
def RowsInv (tds : List TestItem) (ods : List OutputItem) (st : EvalSt) : Prop :=
  st.num_sum = st.rows.length ∧
  st.num_match = (st.rows.filter (fun r => r.flag)).length ∧
  st.seen = st.rows.map (fun r => r.qid) ∧
  (∀ r ∈ st.rows, ∃ t ∈ tds, ∃ o ∈ ods, t.id = o.question_id ∧ r = mkRow t o) ∧
  (st.rows.map (fun r => r.qid)).Nodup

lemma stepInner_inv {tds : List TestItem} {ods : List OutputItem} {t : TestItem}
    (ht : t ∈ tds) {st : EvalSt} {o : OutputItem} (ho : o ∈ ods)
    (h : RowsInv tds ods st) : RowsInv tds ods (stepInner t st o) := by
  unfold stepInner
  by_cases hc : (t.id == o.question_id && !(st.seen.contains o.question_id)) = true
  · rw [if_pos hc]
    obtain ⟨h1, h2, h3, h4, h5⟩ := h
    rw [Bool.and_eq_true] at hc
    rcases hc with ⟨hqid, hfresh⟩
    have hid : t.id = o.question_id := by simpa using hqid
    have hnot : o.question_id ∉ st.seen := by
      simp only [Bool.not_eq_true'] at hfresh
      simpa using hfresh
    rw [h3] at hnot
    refine ⟨?_, ?_, ?_, ?_, ?_⟩
    · simp [h1]
    · cases hflag : (mkRow t o).flag with
      | true => simp [List.filter_append, h2, hflag]
      | false => simp [List.filter_append, h2, hflag]
    · simp [h3, mkRow]
    · intro r hr
      rcases List.mem_append.mp hr with hr | hr
      · exact h4 r hr
      · have hr2 : r = mkRow t o := by simpa using hr
        exact ⟨t, ht, o, ho, hid, hr2⟩
    · rw [List.map_append]
      simp only [List.map_cons, List.map_nil]
      rw [← List.concat_eq_append]
      exact List.Nodup.concat (fun hmem => hnot hmem) h5
  · rw [if_neg hc]
    exact h

lemma foldl_stepInner_inv {tds : List TestItem} {ods : List OutputItem} {t : TestItem}
    (ht : t ∈ tds) :
    ∀ (os : List OutputItem), (∀ o ∈ os, o ∈ ods) → ∀ st, RowsInv tds ods st →
      RowsInv tds ods (os.foldl (stepInner t) st) := by
  intro os
  induction os with
  | nil =>
    intro _ st h
    exact h
  | cons o os ih =>
    intro hsub st h
    exact ih (fun o2 ho2 => hsub o2 (List.mem_cons_of_mem _ ho2)) _
      (stepInner_inv ht (hsub o (List.mem_cons_self _ _)) h)

lemma evaluator_inv (tds : List TestItem) (ods : List OutputItem) :
    RowsInv tds ods (evaluator tds ods) := by
  unfold evaluator
  suffices h : ∀ (ts : List TestItem), (∀ t2 ∈ ts, t2 ∈ tds) → ∀ st, RowsInv tds ods st →
      RowsInv tds ods (ts.foldl (fun st t => ods.foldl (stepInner t) st) st) by
    exact h tds (fun _ ht => ht) _ ⟨rfl, rfl, rfl, by simp, by simp⟩
  intro ts
  induction ts with
  | nil =>
    intro _ st h
    exact h
  | cons t ts ih =>
    intro hsub st h
    exact ih (fun t2 ht2 => hsub t2 (List.mem_cons_of_mem _ ht2)) _
      (foldl_stepInner_inv (hsub t (List.mem_cons_self _ _)) ods (fun _ ho => ho) st h)

/-- The Boolean scan of judger agrees with the mathematical substring
relation. -/
lemma judger_eq_true_iff (ca resp : String) :
    judger ca resp = true ↔ List.IsInfix ca.toList resp.toList := by
  unfold judger
  rw [List.any_eq_true]
  constructor
  · rintro ⟨i, hi, hp⟩
    rw [List.isPrefixOf_iff_prefix] at hp
    rcases hp with ⟨tl, htl⟩
    refine ⟨resp.toList.take i, tl, ?_⟩
    rw [List.append_assoc, htl, List.take_append_drop]
  · rintro ⟨s, t2, hst⟩
    refine ⟨s.length, ?_, ?_⟩
    · rw [List.mem_range]
      have hlen : resp.toList.length = s.length + (ca.toList.length + t2.length) := by
        rw [← hst, List.append_assoc, List.length_append, List.length_append]
      omega
    · rw [List.isPrefixOf_iff_prefix]
      refine ⟨t2, ?_⟩
      rw [← hst, List.append_assoc, List.drop_left]

/-- C9 (amended): in the MMMU evaluator num_sum counts the scored rows,
num_match counts the rows whose flag is set, each question id is scored at
most once, every row comes from a matching test item and output with the flag
set exactly when the parsed reference answer, namely the element at index
answer minus 65 of the bracket-stripped, quote-deleted, comma-space split
serialized options, occurs as a substring of the first response, and the
reported accuracy is num_match divided by num_sum. -/
theorem evaluator_spec (tds : List TestItem) (ods : List OutputItem) :
    (evaluator tds ods).num_sum = (evaluator tds ods).rows.length ∧
    (evaluator tds ods).num_match =
      ((evaluator tds ods).rows.filter (fun r => r.flag)).length ∧
    ((evaluator tds ods).rows.map (fun r => r.qid)).Nodup ∧
    (∀ r ∈ (evaluator tds ods).rows, ∃ t ∈ tds, ∃ o ∈ ods,
      t.id = o.question_id ∧ r = mkRow t o ∧
      (r.flag = true ↔
        List.IsInfix (get_answer t.answer t.options).toList
          ((o.response.headD "").toList))) ∧
    ((evaluator tds ods).num_sum ≠ 0 →
      mainAccuracy (evaluator tds ods).num_match (evaluator tds ods).num_sum *
        ((evaluator tds ods).num_sum : ℚ) = ((evaluator tds ods).num_match : ℚ)) := by
  obtain ⟨h1, h2, h3, h4, h5⟩ := evaluator_inv tds ods
  refine ⟨h1, h2, h5, ?_, ?_⟩
  · intro r hr
    rcases h4 r hr with ⟨t, ht, o, ho, hid, hrow⟩
    refine ⟨t, ht, o, ho, hid, hrow, ?_⟩
    rw [hrow]
    exact judger_eq_true_iff _ _
  · intro hns
    unfold mainAccuracy
    rw [div_mul_cancel₀]
    exact Nat.cast_ne_zero.mpr hns

/-- C9 (counterexample): an item whose first option contains a comma-space is
misparsed.  With the options list holding the two entries a-comma-b and c,
answer letter B and model response c, the element of the options list at index
1 is c, a substring of the response, yet the evaluator scores the item wrong:
get_answer reconstructs b from the flattened serialization. -/
theorem evaluator_reference_answer_mismatch_cex :
    (evaluator [⟨"q1", "Q", reprOptions ["a, b", "c"], 'B'⟩]
        [⟨"q1", "P", ["c"]⟩]).num_match = 0 ∧
    (evaluator [⟨"q1", "Q", reprOptions ["a, b", "c"], 'B'⟩]
        [⟨"q1", "P", ["c"]⟩]).num_sum = 1 ∧
    (["a, b", "c"].getD ('B'.toNat - 65) "") = "c" ∧
    judger "c" "c" = true ∧
    get_answer 'B' (reprOptions ["a, b", "c"]) = "b" := by
  refine ⟨?_, ?_, ?_, ?_, ?_⟩ <;> decide

def tdsW : List TestItem := [⟨"q1", "Q", reprOptions ["x", "y"], 'A'⟩]

def odsW : List OutputItem := [⟨"q1", "P", ["the answer is x"]⟩]

theorem evaluator_spec_witness :
    (evaluator tdsW odsW).num_sum = (evaluator tdsW odsW).rows.length ∧
    (evaluator tdsW odsW).num_match =
      ((evaluator tdsW odsW).rows.filter (fun r => r.flag)).length ∧
    ((evaluator tdsW odsW).rows.map (fun r => r.qid)).Nodup ∧
    (∀ r ∈ (evaluator tdsW odsW).rows, ∃ t ∈ tdsW, ∃ o ∈ odsW,
      t.id = o.question_id ∧ r = mkRow t o ∧
      (r.flag = true ↔
        List.IsInfix (get_answer t.answer t.options).toList
          ((o.response.headD "").toList))) ∧
    ((evaluator tdsW odsW).num_sum ≠ 0 →
      mainAccuracy (evaluator tdsW odsW).num_match (evaluator tdsW odsW).num_sum *
        ((evaluator tdsW odsW).num_sum : ℚ) = ((evaluator tdsW odsW).num_match : ℚ)) :=
  evaluator_spec tdsW odsW

end MMMU

namespace AlignAnything

/-- A Python value appearing in the parameter dict of the chat completion
call. -/
inductive PVal where
  | nat (n : Nat)
  | str (s : String)
  | bool (b : Bool)
  | null
deriving DecidableEq, Repr

/-- The parameter dict passed to create_openai_chat_completion. -/
abbrev Params := List (String × PVal)

def pfind (ps : Params) (k : String) : Option PVal :=
  (ps.find? (fun p => p.1 == k)).map (fun p => p.2)

/-- Models the get method of a Python dict with a default. -/
def pget (ps : Params) (k : String) (d : PVal) : PVal :=
  (pfind ps k).getD d

/-- The request record sent to client.chat.completions.create. -/
structure ChatRequest where
  messages : List (String × String)
  model : PVal
  max_tokens : PVal
  temperature : PVal
  top_p : PVal
  frequency_penalty : PVal
  presence_penalty : PVal
  stop : PVal
  stream : PVal
  logprobs : PVal
  top_logprobs : PVal
deriving DecidableEq, Repr

/-- Models create_openai_chat_completion: forward the messages and the model,
fill each sampling option from the parameter dict with its fixed default; the
none result models the KeyError when the model key is missing. -/
def create_openai_chat_completion (messages : List (String × String))
    (parameters : Params) : Option ChatRequest :=
  match pfind parameters "model" with
  | none => none
  | some m =>
    some
      { messages := messages
        model := m
        max_tokens := pget parameters "max_tokens" (PVal.nat 2048)
        temperature := pget parameters "temperature" (PVal.nat 1)
        top_p := pget parameters "top_p" (PVal.nat 1)
        frequency_penalty := pget parameters "frequency_penalty" (PVal.nat 0)
        presence_penalty := pget parameters "presence_penalty" (PVal.nat 0)
        stop := pget parameters "stop" PVal.null
        stream := pget parameters "stream" (PVal.bool false)
        logprobs := pget parameters "logprobs" (PVal.bool false)
        top_logprobs := pget parameters "top_logprobs" PVal.null }

/-- C10: create_openai_chat_completion forwards the message list and the model
identifier unchanged and fills every absent sampling parameter with its fixed
default: max_tokens 2048, temperature 1, top_p 1, frequency_penalty 0,
presence_penalty 0, stop None, stream False, logprobs False, top_logprobs
None; a present parameter is forwarded as given. -/
theorem create_openai_chat_completion_defaults (messages : List (String × String))
    (parameters : Params) (m : PVal)
    (hm : pfind parameters "model" = some m) :
    ∃ r, create_openai_chat_completion messages parameters = some r ∧
      r.messages = messages ∧ r.model = m ∧
      (pfind parameters "max_tokens" = none → r.max_tokens = PVal.nat 2048) ∧
      (pfind parameters "temperature" = none → r.temperature = PVal.nat 1) ∧
      (pfind parameters "top_p" = none → r.top_p = PVal.nat 1) ∧
      (pfind parameters "frequency_penalty" = none → r.frequency_penalty = PVal.nat 0) ∧
      (pfind parameters "presence_penalty" = none → r.presence_penalty = PVal.nat 0) ∧
      (pfind parameters "stop" = none → r.stop = PVal.null) ∧
      (pfind parameters "stream" = none → r.stream = PVal.bool false) ∧
      (pfind parameters "logprobs" = none → r.logprobs = PVal.bool false) ∧
      (pfind parameters "top_logprobs" = none → r.top_logprobs = PVal.null) ∧
      (∀ v, pfind parameters "max_tokens" = some v → r.max_tokens = v) ∧
      (∀ v, pfind parameters "temperature" = some v → r.temperature = v) ∧
      (∀ v, pfind parameters "top_p" = some v → r.top_p = v) ∧
      (∀ v, pfind parameters "frequency_penalty" = some v → r.frequency_penalty = v) ∧
      (∀ v, pfind parameters "presence_penalty" = some v → r.presence_penalty = v) ∧
      (∀ v, pfind parameters "stop" = some v → r.stop = v) ∧
      (∀ v, pfind parameters "stream" = some v → r.stream = v) ∧
      (∀ v, pfind parameters "logprobs" = some v → r.logprobs = v) ∧
      (∀ v, pfind parameters "top_logprobs" = some v → r.top_logprobs = v) := by
  unfold create_openai_chat_completion
  rw [hm]
  refine ⟨_, rfl, rfl, rfl, ?_, ?_, ?_, ?_, ?_, ?_, ?_, ?_, ?_,
    ?_, ?_, ?_, ?_, ?_, ?_, ?_, ?_, ?_⟩ <;>
    first
    | (intro h
       simp [pget, h])
    | (intro v h
       simp [pget, h])

def paramsW : Params := [("model", PVal.str "gpt"), ("temperature", PVal.nat 0)]

def messagesW : List (String × String) := [("user", "hi")]

theorem create_openai_chat_completion_defaults_witness :
    ∃ r, create_openai_chat_completion messagesW paramsW = some r ∧
      r.messages = messagesW ∧ r.model = PVal.str "gpt" ∧
      (pfind paramsW "max_tokens" = none → r.max_tokens = PVal.nat 2048) ∧
      (pfind paramsW "temperature" = none → r.temperature = PVal.nat 1) ∧
      (pfind paramsW "top_p" = none → r.top_p = PVal.nat 1) ∧
      (pfind paramsW "frequency_penalty" = none → r.frequency_penalty = PVal.nat 0) ∧
      (pfind paramsW "presence_penalty" = none → r.presence_penalty = PVal.nat 0) ∧
      (pfind paramsW "stop" = none → r.stop = PVal.null) ∧
      (pfind paramsW "stream" = none → r.stream = PVal.bool false) ∧
      (pfind paramsW "logprobs" = none → r.logprobs = PVal.bool false) ∧
      (pfind paramsW "top_logprobs" = none → r.top_logprobs = PVal.null) ∧
      (∀ v, pfind paramsW "max_tokens" = some v → r.max_tokens = v) ∧
      (∀ v, pfind paramsW "temperature" = some v → r.temperature = v) ∧
      (∀ v, pfind paramsW "top_p" = some v → r.top_p = v) ∧
      (∀ v, pfind paramsW "frequency_penalty" = some v → r.frequency_penalty = v) ∧
      (∀ v, pfind paramsW "presence_penalty" = some v → r.presence_penalty = v) ∧
      (∀ v, pfind paramsW "stop" = some v → r.stop = v) ∧
      (∀ v, pfind paramsW "stream" = some v → r.stream = v) ∧
      (∀ v, pfind paramsW "logprobs" = some v → r.logprobs = v) ∧
      (∀ v, pfind paramsW "top_logprobs" = some v → r.top_logprobs = v) :=
  create_openai_chat_completion_defaults messagesW paramsW (PVal.str "gpt") rfl

end AlignAnything
